import Mathlib

/-!
Verification development for the web service layer of the
`daily_stock_analysis` repository (`src/web/services.py`): the config
service (`ConfigService`), the analysis-task service (`AnalysisService`)
and the market-review service (`MarketService`).

The Python code is shallowly embedded: each service's mutable state
(the in-memory dict plus its mirror file) becomes an explicit state
structure, each method becomes a pure function from state to state plus
output, Python dicts become association lists (a Python dict has unique
keys and preserves insertion order; we model `d[k] = v` as in-place
replacement-or-append, `del d[k]` as removal of the key, `d.get(k)` as
first lookup), and the external collaborators (the analysis pipeline,
the market analyzer, `datetime` parsing) become explicit parameters or
executable stand-ins noted at their definitions.
-/

/-! ## Time stand-in

`datetime` values are modelled as integers (seconds for the task store,
days for the review store).  `datetime.fromisoformat` /
`datetime.strptime` are stand-ins: an executable parser on decimal-digit
strings that returns `none` exactly when parsing fails, which is the only
behaviour the service code observes (`try ... except ValueError`). -/

/-- Stand-in for `datetime.fromisoformat(s)` (and `strptime`): parses a
nonempty all-digit string as an integer timestamp, `none` on failure. -/
def parseTime (s : String) : Option Int :=
  if s.data.isEmpty then none
  else if s.data.all Char.isDigit then
    some ((s.data.foldl (fun a c => a * 10 + (c.toNat - 48)) 0 : Nat) : Int)
  else none

/-- The task retention window: 3 days = 72 hours, in seconds
(`3 * 24 * 3600` in `services.py`). -/
def taskRetention : Int := 3 * 24 * 3600

/-! ## Association-list dictionaries (the Python `dict`s) -/

/-- `d.get(k)`: first value stored under `k`. -/
def dictGet {α : Type} (k : String) : List (String × α) → Option α
  | [] => none
  | (k', v) :: rest => if k' = k then some v else dictGet k rest

/-- `d[k] = v`: replace in place if `k` is present, else append. -/
def dictInsert {α : Type} (k : String) (v : α) : List (String × α) → List (String × α)
  | [] => [(k, v)]
  | (k', v') :: rest => if k' = k then (k, v) :: rest else (k', v') :: dictInsert k v rest

/-- `del d[k]`: drop the key (a Python dict holds it at most once). -/
def dictRemove {α : Type} (k : String) (l : List (String × α)) : List (String × α) :=
  l.filter (fun kv => kv.1 != k)

theorem dictGet_dictInsert {α : Type} (k : String) (v : α) (l : List (String × α)) :
    dictGet k (dictInsert k v l) = some v := by
  induction l with
  | nil => simp [dictInsert, dictGet]
  | cons kv rest ih =>
    by_cases h : kv.1 = k
    · simp [dictInsert, dictGet, h]
    · simpa [dictInsert, dictGet, h] using ih

theorem dictGet_dictRemove {α : Type} (k : String) (l : List (String × α)) :
    dictGet k (dictRemove k l) = none := by
  induction l with
  | nil => simp [dictRemove, dictGet]
  | cons kv rest ih =>
    by_cases h : kv.1 = k
    · simpa [dictRemove, List.filter, h] using ih
    · have hb : (kv.1 != k) = true := by simpa using h
      simpa [dictRemove, List.filter, hb, dictGet, h] using ih

/-! ## Task records (`AnalysisService`) -/

/-- The `status` strings the service writes. -/
inductive TaskStatus where
  | running
  | completed
  | failed
deriving DecidableEq, Repr

/-- Stand-in for the collaborator's structured serialization
(`result.to_dict()` in `_run_analysis`); the service treats it as opaque. -/
abbrev ResultData := String

/-- One task dict, as `_run_analysis` builds it.  `start_time` is
`Option String` because records loaded from the file may lack the key;
`end_time` is absent until the worker finishes. -/
structure TaskRecord where
  task_id : String
  code : String
  status : TaskStatus
  start_time : Option String
  end_time : Option String
  result : Option ResultData
  error : Option String
deriving DecidableEq, Repr

/-- `task.get('start_time')` followed by the falsy test
`if not start_time_str` : an absent key and an empty string both count
as missing. -/
def getStartTime? (t : TaskRecord) : Option String :=
  match t.start_time with
  | none => none
  | some s => if s = "" then none else some s

/-- The parsed start timestamp of a record: `none` both when the key is
missing/falsy (`if not start_time_str: continue`) and when parsing
raises `ValueError` — the code treats the two fallthroughs identically. -/
def parsedStart (t : TaskRecord) : Option Int :=
  (getStartTime? t).bind parseTime

/-- A record the save/load cleanup keeps: a usable `start_time` that
parses and is at most 72 hours old. -/
def taskValid (now : Int) (t : TaskRecord) : Bool :=
  (parsedStart t).elim false (fun v => decide (now - v ≤ taskRetention))

/-- The test `list_tasks` uses to evict: a `start_time` that parses and
is strictly older than 72 hours.  A missing or unparsable `start_time`
is NOT expired under this test (the `except ValueError: pass` branch). -/
def isExpired (now : Int) (t : TaskRecord) : Bool :=
  (parsedStart t).elim false (fun v => decide (now - v > taskRetention))

theorem isExpired_eq_false_of_taskValid (now : Int) (t : TaskRecord)
    (h : taskValid now t = true) : isExpired now t = false := by
  unfold taskValid at h
  unfold isExpired
  cases hp : parsedStart t with
  | none => rfl
  | some v =>
    rw [hp] at h
    simp only [Option.elim_some, decide_eq_true_eq] at h
    simp [not_lt.mpr h]

/-- The state of `AnalysisService`: the in-memory `self._tasks` dict and
the contents of `data/tasks.json` (`none` = the file does not exist). -/
structure AnalysisState where
  tasks : List (String × TaskRecord)
  file : Option (List (String × TaskRecord))
deriving DecidableEq, Repr

/-- `AnalysisService._save_tasks`: re-runs the cleanup (keeping only
records with a parsable `start_time` within 72 hours) and rewrites the
whole file with the filtered mapping.  The in-memory dict is untouched. -/
def save_tasks (now : Int) (st : AnalysisState) : AnalysisState :=
  { st with file := some (st.tasks.filter (fun kv => taskValid now kv.2)) }

/-- The filtering loop of `AnalysisService._load_tasks`: keeps records
within the 72-hour window; a missing `start_time` or a parse failure hits
a `continue` (dropped, and `has_changes` is NOT set); only an expired
parsable record sets `has_changes`.  Returns `(valid_tasks, has_changes)`. -/
def loadFilterTasks (now : Int) : List (String × TaskRecord) → List (String × TaskRecord) × Bool
  | [] => ([], false)
  | kv :: rest =>
    let r := loadFilterTasks now rest
    (parsedStart kv.2).elim r
      (fun v => if now - v ≤ taskRetention then (kv :: r.1, r.2) else (r.1, true))

/-- `AnalysisService._load_tasks`: nothing happens when the file is
missing; otherwise the filtered mapping replaces the in-memory dict and,
only when `has_changes` was set, `_save_tasks` rewrites the file. -/
def load_tasks (now : Int) (st : AnalysisState) : AnalysisState :=
  match st.file with
  | none => st
  | some data =>
    let r := loadFilterTasks now data
    let st' := { st with tasks := r.1 }
    if r.2 then save_tasks now st' else st'

theorem loadFilterTasks_eq (now : Int) (data : List (String × TaskRecord)) :
    loadFilterTasks now data =
      (data.filter (fun kv => taskValid now kv.2),
       data.any (fun kv => isExpired now kv.2)) := by
  induction data with
  | nil => rfl
  | cons kv rest ih =>
    unfold loadFilterTasks
    rw [ih]
    cases hp : parsedStart kv.2 with
    | none => simp [List.filter, List.any, taskValid, isExpired, hp]
    | some v =>
      by_cases hval : now - v ≤ taskRetention
      · have hexp : ¬ (now - v > taskRetention) := not_lt.mpr hval
        have hval' : now ≤ taskRetention + v := by omega
        simp [List.filter, List.any, taskValid, isExpired, hp, hval, hval', hexp]
      · have hexp : now - v > taskRetention := lt_of_not_ge hval
        have hval' : ¬ now ≤ taskRetention + v := by omega
        simp [List.filter, List.any, taskValid, isExpired, hp, hval, hval', hexp]

/-! ## Task-service operations -/

/-- The response dict `submit_analysis` returns. -/
structure SubmitResponse where
  success : Bool
  message : String
  code : String
  task_id : String
deriving DecidableEq, Repr

/-- `f"{code}_{datetime.now().strftime(...)}"`: the task id is the code
joined to a timestamp string (`stamp`) with an underscore. -/
def mkTaskId (code stamp : String) : String := code ++ "_" ++ stamp

/-- `AnalysisService.submit_analysis`: builds the task id, hands
`_run_analysis` to the thread pool (`self.executor.submit(...)` — which
touches neither `self._tasks` nor the file) and returns the response.
The running record is NOT written here; the worker writes it when it
starts. -/
def submit_analysis (code stamp : String) (st : AnalysisState) :
    AnalysisState × SubmitResponse :=
  (st, ⟨true, "分析任务已提交，将异步执行并推送通知", code, mkTaskId code stamp⟩)

/-- `AnalysisService.get_task_status`: `self._tasks.get(task_id)` under
the lock — a pure read. -/
def get_task_status (tid : String) (st : AnalysisState) :
    AnalysisState × Option TaskRecord :=
  (st, dictGet tid st.tasks)

/-- `AnalysisService.delete_task`: if the key is present, `del` it and
`_save_tasks()`, returning `True`; otherwise return `False`. -/
def delete_task (now : Int) (tid : String) (st : AnalysisState) :
    AnalysisState × Bool :=
  if (dictGet tid st.tasks).isSome then
    (save_tasks now { st with tasks := dictRemove tid st.tasks }, true)
  else
    (st, false)

/-- The sort key of `list_tasks`: `x.get('start_time', '')`. -/
def sortKey (t : TaskRecord) : String := t.start_time.getD ""

/-- One step of a stable descending insertion by `sortKey`, modelling
`tasks.sort(key=lambda x: x.get('start_time', ''), reverse=True)`. -/
def insertDesc (t : TaskRecord) : List TaskRecord → List TaskRecord
  | [] => [t]
  | u :: rest => if sortKey u < sortKey t then t :: u :: rest else u :: insertDesc t rest

/-- Descending sort by `sortKey`. -/
def sortDesc : List TaskRecord → List TaskRecord
  | [] => []
  | t :: rest => insertDesc t (sortDesc rest)

/-- `AnalysisService.list_tasks`: under the lock, collect the ids whose
`start_time` parses and is older than 72 hours, delete them, and when any
were deleted spawn a detached `threading.Thread(target=self._save_tasks)`
(modelled as the returned flag — the write is fire-and-forget, not an
inline file update).  The cleanup block appears twice in the source, so
it runs twice; then the remaining records are sorted by `start_time`
descending and truncated to `limit`.  Returns
(new state, listed records, whether a background save was spawned). -/
def list_tasks (now : Int) (limit : Nat) (st : AnalysisState) :
    AnalysisState × List TaskRecord × Bool :=
  let expired1 := st.tasks.filter (fun kv => isExpired now kv.2)
  let tasks1 := st.tasks.filter (fun kv => !isExpired now kv.2)
  let expired2 := tasks1.filter (fun kv => isExpired now kv.2)
  let tasks2 := tasks1.filter (fun kv => !isExpired now kv.2)
  let bg := !expired1.isEmpty || !expired2.isEmpty
  ({ st with tasks := tasks2 }, (sortDesc (tasks2.map (·.2))).take limit, bg)

/-! ## The worker (`AnalysisService._run_analysis`) -/

/-- What the analysis collaborator
(`StockAnalysisPipeline.process_single_stock`) does, seen from the
worker: a non-empty result, an empty/falsy result, or a raised
exception with message `msg` (`str(e)`). -/
inductive RunOutcome where
  | ok (r : ResultData)
  | empty
  | exn (msg : String)
deriving DecidableEq, Repr

/-- The dict `_run_analysis` returns (never an escaping exception). -/
structure RunResponse where
  success : Bool
  task_id : String
  result : Option ResultData
  error : Option String
deriving DecidableEq, Repr

/-- Stand-in for `datetime.now().isoformat()` at integer time `v`. -/
def timeStr (v : Int) : String := toString v

/-- The initial record `_run_analysis` writes before calling the
collaborator: status `running`, `start_time = now`, no `end_time`,
`result = None`, `error = None`. -/
def initialTask (code tid : String) (now : Int) : TaskRecord :=
  ⟨tid, code, .running, some (timeStr now), none, none, none⟩

/-- The `self._tasks[task_id].update({...})` the worker performs on the
record `t` once the collaborator comes back. -/
def finishTask (t : TaskRecord) (endNow : Int) : RunOutcome → TaskRecord
  | .ok r => { t with status := .completed, end_time := some (timeStr endNow), result := some r }
  | .empty => { t with status := .failed, end_time := some (timeStr endNow),
                       error := some "分析返回空结果" }
  | .exn m => { t with status := .failed, end_time := some (timeStr endNow), error := some m }

/-- The first phase of `_run_analysis`: write the running record into
the table and save (the save is called twice in the source; at one
instant the second call rewrites the identical file). -/
def workerInit (code tid : String) (now : Int) (st : AnalysisState) : AnalysisState :=
  save_tasks now (save_tasks now { st with tasks := dictInsert tid (initialTask code tid now) st.tasks })

/-- `_run_analysis` end to end, sequentially: write the running record,
invoke the collaborator (its behaviour is the `outcome` parameter), then
record exactly one of the three terminal outcomes and save.  Every
branch — including a raised exception — returns a normal response dict;
nothing escapes the worker. -/
def run_analysis (code tid : String) (startNow endNow : Int) (outcome : RunOutcome)
    (st : AnalysisState) : AnalysisState × RunResponse :=
  let st1 := workerInit code tid startNow st
  let tf := finishTask (initialTask code tid startNow) endNow outcome
  let st2 := save_tasks endNow (save_tasks endNow { st1 with tasks := dictInsert tid tf st1.tasks })
  (st2,
    match outcome with
    | .ok r => ⟨true, tid, some r, none⟩
    | .empty => ⟨false, tid, none, some "分析返回空结果"⟩
    | .exn m => ⟨false, tid, none, some m⟩)

/-! ## Sorting lemmas for `list_tasks` -/

theorem mem_insertDesc {a t : TaskRecord} {l : List TaskRecord} :
    a ∈ insertDesc t l ↔ a = t ∨ a ∈ l := by
  induction l with
  | nil => simp [insertDesc]
  | cons u rest ih =>
    by_cases h : sortKey u < sortKey t
    · simp [insertDesc, h]
    · simp [insertDesc, h, ih]
      tauto

theorem perm_insertDesc (t : TaskRecord) (l : List TaskRecord) :
    List.Perm (insertDesc t l) (t :: l) := by
  induction l with
  | nil => simp [insertDesc]
  | cons u rest ih =>
    by_cases h : sortKey u < sortKey t
    · simp [insertDesc, h]
    · simp only [insertDesc, h, if_false]
      exact (ih.cons u).trans (List.Perm.swap t u rest)

theorem perm_sortDesc (l : List TaskRecord) : List.Perm (sortDesc l) l := by
  induction l with
  | nil => simp [sortDesc]
  | cons t rest ih =>
    exact (perm_insertDesc t (sortDesc rest)).trans (ih.cons t)

theorem sorted_insertDesc (t : TaskRecord) (l : List TaskRecord)
    (h : List.Sorted (fun a b => sortKey b ≤ sortKey a) l) :
    List.Sorted (fun a b => sortKey b ≤ sortKey a) (insertDesc t l) := by
  induction l with
  | nil => simp [insertDesc]
  | cons u rest ih =>
    rw [List.sorted_cons] at h
    by_cases hu : sortKey u < sortKey t
    · simp only [insertDesc, hu, if_true]
      rw [List.sorted_cons]
      constructor
      · intro b hb
        rcases List.mem_cons.mp hb with hb | hb
        · exact le_of_lt (hb ▸ hu)
        · exact le_trans (h.1 b hb) (le_of_lt hu)
      · exact List.sorted_cons.mpr h
    · simp only [insertDesc, hu, if_false]
      rw [List.sorted_cons]
      constructor
      · intro b hb
        rcases mem_insertDesc.mp hb with hb | hb
        · exact hb ▸ le_of_not_lt hu
        · exact h.1 b hb
      · exact ih h.2

theorem sorted_sortDesc (l : List TaskRecord) :
    List.Sorted (fun a b => sortKey b ≤ sortKey a) (sortDesc l) := by
  induction l with
  | nil => simp [sortDesc]
  | cons t rest ih => exact sorted_insertDesc t (sortDesc rest) ih

/-! ## Review records (`MarketService`) -/

/-- Stand-in for the structured market overview the collaborator
returns (the `overview` sub-dict built from `MarketAnalyzer`); the cache
stores it opaquely. -/
abbrev Overview := String

/-- One review dict, as `get_today_review` builds it.  A success record
has `report`/`overview` and no `error`; a failure record has `error` and
neither `report` nor `overview`. -/
structure ReviewRecord where
  date : String
  report : Option String
  generated_at : String
  overview : Option Overview
  error : Option String
deriving DecidableEq, Repr

/-- The review retention window, in days (`(now - review_date).days <= 7`). -/
def reviewRetention : Int := 7

/-- The state of `MarketService`: the in-memory `self._reviews` dict and
the contents of `data/market_reviews.json` (`none` = missing file). -/
structure MarketState where
  reviews : List (String × ReviewRecord)
  rfile : Option (List (String × ReviewRecord))
deriving DecidableEq, Repr

/-- The keep test of `_load_reviews`: the DATE KEY parses
(`datetime.strptime(date_str, '%Y-%m-%d')`, stand-in `parseTime` at day
granularity) and is at most 7 days old; a parse failure `continue`s. -/
def reviewValid (nowDays : Int) (dateStr : String) : Bool :=
  (parseTime dateStr).elim false (fun d => decide (nowDays - d ≤ reviewRetention))

/-- `MarketService._load_reviews`: nothing happens when the file is
missing; otherwise the filtered mapping replaces the in-memory dict.
Unlike the task store, NO save is performed, whatever was dropped. -/
def load_reviews (nowDays : Int) (st : MarketState) : MarketState :=
  match st.rfile with
  | none => st
  | some data => { st with reviews := data.filter (fun kv => reviewValid nowDays kv.1) }

/-- `MarketService._save_reviews`: rewrites the whole file with the
in-memory dict as is (no age filtering on save, unlike `_save_tasks`). -/
def save_reviews (st : MarketState) : MarketState :=
  { st with rfile := some st.reviews }

/-- What the report-generation collaborator (market overview → news
search → report synthesis) does: a report plus overview, or a raised
exception with message `msg` (`str(e)`). -/
inductive GenOutcome where
  | ok (report : String) (ov : Overview)
  | exn (msg : String)
deriving DecidableEq, Repr

/-- The success record `get_today_review` builds and caches. -/
def mkOkReview (today genAt report : String) (ov : Overview) : ReviewRecord :=
  ⟨today, some report, genAt, some ov, none⟩

/-- The error record the `except` branch of `get_today_review` returns:
`{"date": today, "error": str(e), "generated_at": ...}`. -/
def mkErrReview (today genAt msg : String) : ReviewRecord :=
  ⟨today, none, genAt, none, some msg⟩

/-- `MarketService.get_today_review`: with `force_refresh` unset, a
cache hit for today's key returns the cached record (no generation).
Otherwise the collaborator runs (behaviour = `outcome`): on success the
record is stored under today's key and the file rewritten; on an
exception the error record is only RETURNED — the `except` branch stores
nothing and saves nothing.  The final component reports whether the
generation collaborator was invoked. -/
def get_today_review (today genAt : String) (force : Bool) (outcome : GenOutcome)
    (st : MarketState) : MarketState × ReviewRecord × Bool :=
  match (if force then none else dictGet today st.reviews) with
  | some cached => (st, cached, false)
  | none =>
    match outcome with
    | .ok report ov =>
      let rd := mkOkReview today genAt report ov
      (save_reviews { st with reviews := dictInsert today rd st.reviews }, rd, true)
    | .exn m => (st, mkErrReview today genAt m, true)

/-- `MarketService.get_review_by_date`: `self._reviews.get(date)` under
the lock — a pure read. -/
def get_review_by_date (d : String) (st : MarketState) :
    MarketState × Option ReviewRecord :=
  (st, dictGet d st.reviews)

/-! ## Helper lemmas -/

theorem filter_idem {α : Type} (p : α → Bool) (l : List α) :
    (l.filter p).filter p = l.filter p :=
  List.filter_eq_self.mpr (fun _ ha => List.of_mem_filter ha)

theorem load_tasks_some (now : Int) (ts data : List (String × TaskRecord)) :
    load_tasks now ⟨ts, some data⟩ =
      (if (loadFilterTasks now data).2 then
        save_tasks now ⟨(loadFilterTasks now data).1, some data⟩
      else ⟨(loadFilterTasks now data).1, some data⟩) := rfl

theorem filter_neg_filter {α : Type} (p : α → Bool) (l : List α) :
    (l.filter (fun a => !p a)).filter p = [] := by
  rw [List.filter_eq_nil_iff]
  intro a ha
  have h := List.of_mem_filter ha
  simp at h
  simp [h]

theorem any_eq_not_isEmpty_filter {α : Type} (p : α → Bool) (l : List α) :
    l.any p = !(l.filter p).isEmpty := by
  induction l with
  | nil => rfl
  | cons a l ih =>
    by_cases h : p a = true
    · simp [List.filter_cons, h]
    · simp only [Bool.not_eq_true] at h
      simp [List.filter_cons, h, ih]

/-! ## Claims about the task service -/

/-- Claim C1, counterexample: on a fresh service, `submit_analysis`
returns without touching the table, so `get_task_status` of the returned
`task_id` immediately after the submission finds NO record at all — not
a `running` one.  (The running record is only written later, by the
worker thread.) -/
theorem claim_C1_counterexample :
    (submit_analysis "600519" "20250101_000000_000000" ⟨[], none⟩).1 = ⟨[], none⟩ ∧
    (get_task_status (submit_analysis "600519" "20250101_000000_000000" ⟨[], none⟩).2.task_id
        (submit_analysis "600519" "20250101_000000_000000" ⟨[], none⟩).1).2 = none :=
  ⟨rfl, rfl⟩

/-- Claim C1, amended: `submit_analysis` leaves the record table exactly
as it was (the record can be absent right after submission); the running
record is written by the worker as its first step, before the
collaborator is invoked, and once that step has run `get_task_status`
returns precisely the `running` record. -/
theorem claim_C1 (code stamp : String) (now : Int) (st : AnalysisState) :
    (submit_analysis code stamp st).1 = st ∧
    (submit_analysis code stamp st).2.task_id = mkTaskId code stamp ∧
    (get_task_status (mkTaskId code stamp)
        (workerInit code (mkTaskId code stamp) now (submit_analysis code stamp st).1)).2
      = some (initialTask code (mkTaskId code stamp) now) ∧
    (initialTask code (mkTaskId code stamp) now).status = .running := by
  refine ⟨rfl, rfl, ?_, rfl⟩
  simp [get_task_status, submit_analysis, workerInit, save_tasks, dictGet_dictInsert]

/-- Claim C4: saving a task mapping `M` and then performing a fresh
`load()` from the same file yields exactly the records of `M` whose
`start_time` parses within the 72-hour window, unchanged — both in
memory and in the file. -/
theorem claim_C4 (now : Int) (M : List (String × TaskRecord))
    (f : Option (List (String × TaskRecord))) :
    load_tasks now ⟨[], (save_tasks now ⟨M, f⟩).file⟩ =
      ⟨M.filter (fun kv => taskValid now kv.2),
       some (M.filter (fun kv => taskValid now kv.2))⟩ := by
  have hany : (M.filter (fun kv => taskValid now kv.2)).any (fun kv => isExpired now kv.2)
      = false := by
    rw [List.any_eq_false]
    intro kv hkv
    have hv : taskValid now kv.2 = true := by
      have h := List.of_mem_filter hkv
      simpa using h
    simp [isExpired_eq_false_of_taskValid now kv.2 hv]
  show load_tasks now ⟨[], some (M.filter (fun kv => taskValid now kv.2))⟩ = _
  rw [load_tasks_some, loadFilterTasks_eq]
  simp [filter_idem, hany]

/-- Claim C5, counterexample: a record whose `start_time` does not parse
("zz") is NOT dropped by the read-time eviction of `list_tasks` — it is
retained in the table and even returned in the listing. -/
theorem claim_C5_counterexample :
    (list_tasks 1000 100 ⟨[("t1", ⟨"t1", "600519", .running, some "zz", none, none, none⟩)], none⟩).1.tasks
      = [("t1", ⟨"t1", "600519", .running, some "zz", none, none, none⟩)] ∧
    (⟨"t1", "600519", .running, some "zz", none, none, none⟩ : TaskRecord)
      ∈ (list_tasks 1000 100 ⟨[("t1", ⟨"t1", "600519", .running, some "zz", none, none, none⟩)], none⟩).2.1 := by
  constructor
  · rfl
  · decide

/-- Claim C5, amended: at load time (and at save time) a record with a
missing or unparsable `start_time` is dropped without error — the loaded
set is exactly the `taskValid` filter; at read time in `list_tasks` only
records that parse AND exceed the window are removed, so records with a
missing or unparsable `start_time` are retained there (still without
error). -/
theorem claim_C5 (now : Int) (data : List (String × TaskRecord))
    (st : AnalysisState) (limit : Nat) :
    (loadFilterTasks now data).1 = data.filter (fun kv => taskValid now kv.2) ∧
    (load_tasks now ⟨[], some data⟩).tasks = data.filter (fun kv => taskValid now kv.2) ∧
    (list_tasks now limit st).1.tasks = st.tasks.filter (fun kv => !isExpired now kv.2) := by
  refine ⟨by rw [loadFilterTasks_eq], ?_, ?_⟩
  · rw [load_tasks_some, loadFilterTasks_eq]
    by_cases h : data.any (fun kv => isExpired now kv.2) <;> simp [h, save_tasks]
  · simp [list_tasks, filter_idem]

/-- Claim C7: the worker's records respect the lifecycle invariants —
the initial record is `running` with no `end_time`/`result`/`error`; the
terminal record always carries `end_time`, carries `result` exactly on a
non-empty collaborator result, carries `error` exactly on failure (the
stringified exception when one was raised), and is what the table holds
afterwards; and every branch, the exception branch included, returns a
normal response (nothing escapes the worker). -/
theorem claim_C7 (code tid : String) (startNow endNow : Int) (outcome : RunOutcome)
    (st : AnalysisState) :
    (initialTask code tid startNow).status = .running ∧
    (initialTask code tid startNow).end_time = none ∧
    (initialTask code tid startNow).result = none ∧
    (initialTask code tid startNow).error = none ∧
    ((initialTask code tid startNow).end_time.isSome ↔
      ((initialTask code tid startNow).status = .completed ∨
       (initialTask code tid startNow).status = .failed)) ∧
    (finishTask (initialTask code tid startNow) endNow outcome).end_time
      = some (timeStr endNow) ∧
    ((finishTask (initialTask code tid startNow) endNow outcome).status = .completed ∨
     (finishTask (initialTask code tid startNow) endNow outcome).status = .failed) ∧
    (finishTask (initialTask code tid startNow) endNow outcome).result
      = (match outcome with | .ok r => some r | .empty => none | .exn _ => none) ∧
    (finishTask (initialTask code tid startNow) endNow outcome).status
      = (match outcome with | .ok _ => .completed | .empty => .failed | .exn _ => .failed) ∧
    (finishTask (initialTask code tid startNow) endNow outcome).error
      = (match outcome with
         | .ok _ => none | .empty => some "分析返回空结果" | .exn m => some m) ∧
    dictGet tid (run_analysis code tid startNow endNow outcome st).1.tasks
      = some (finishTask (initialTask code tid startNow) endNow outcome) ∧
    (run_analysis code tid startNow endNow outcome st).2
      = (match outcome with
         | .ok r => ⟨true, tid, some r, none⟩
         | .empty => ⟨false, tid, none, some "分析返回空结果"⟩
         | .exn m => ⟨false, tid, none, some m⟩) := by
  cases outcome <;>
    refine ⟨rfl, rfl, rfl, rfl, by simp [initialTask], rfl, ?_, rfl, rfl, rfl, ?_, rfl⟩ <;>
    simp [finishTask, run_analysis, workerInit, save_tasks, dictGet_dictInsert]

/-- Claim C8: `delete_task` returns `True` exactly when the key was
present (removing the record and rewriting the file), returns `False`
without error otherwise, and in either case a `get` right after the
delete finds nothing. -/
theorem claim_C8 (now : Int) (tid : String) (st : AnalysisState) :
    ((delete_task now tid st).2 = (dictGet tid st.tasks).isSome) ∧
    dictGet tid (delete_task now tid st).1.tasks = none ∧
    (get_task_status tid (delete_task now tid st).1).2 = none ∧
    ((delete_task now tid st).1.file =
      if (dictGet tid st.tasks).isSome then
        some ((dictRemove tid st.tasks).filter (fun kv => taskValid now kv.2))
      else st.file) := by
  by_cases h : (dictGet tid st.tasks).isSome = true
  · simp [delete_task, h, save_tasks, get_task_status, dictGet_dictRemove]
  · have hnone : dictGet tid st.tasks = none := by
      cases hg : dictGet tid st.tasks
      · rfl
      · simp [hg] at h
    simp [delete_task, h, get_task_status, hnone]

/-- Claim C9: the `get` operations of both tables are pure reads — the
state they return is the argument state, so every later operation
behaves exactly as if the `get` had not happened, whether or not the
looked-up record exists or is expired. -/
theorem claim_C9 (tid tid2 d today genAt : String) (now : Int) (limit : Nat)
    (force : Bool) (oc : GenOutcome) (st : AnalysisState) (mst : MarketState) :
    (get_task_status tid st).1 = st ∧
    (get_review_by_date d mst).1 = mst ∧
    get_task_status tid2 ((get_task_status tid st).1) = get_task_status tid2 st ∧
    list_tasks now limit ((get_task_status tid st).1) = list_tasks now limit st ∧
    delete_task now tid2 ((get_task_status tid st).1) = delete_task now tid2 st ∧
    get_today_review today genAt force oc ((get_review_by_date d mst).1)
      = get_today_review today genAt force oc mst ∧
    get_review_by_date d ((get_review_by_date d mst).1) = get_review_by_date d mst :=
  ⟨rfl, rfl, rfl, rfl, rfl, rfl, rfl⟩

/-- Claim C6: `list_tasks` first removes every record whose `start_time`
parses to an age beyond 72 hours (the removal is only signalled to a
detached background save, the file is not rewritten inline — the
returned flag is set exactly when something was evicted), then returns
the remaining records sorted by `start_time` descending, truncated to
`limit`; no returned record has a parsed age over the window. -/
theorem claim_C6 (now : Int) (limit : Nat) (st : AnalysisState) :
    (list_tasks now limit st).1.tasks = st.tasks.filter (fun kv => !isExpired now kv.2) ∧
    (list_tasks now limit st).1.file = st.file ∧
    (list_tasks now limit st).2.1
      = (sortDesc ((list_tasks now limit st).1.tasks.map (·.2))).take limit ∧
    List.Perm (sortDesc ((list_tasks now limit st).1.tasks.map (·.2)))
      ((list_tasks now limit st).1.tasks.map (·.2)) ∧
    (list_tasks now limit st).2.1.length ≤ limit ∧
    List.Sorted (fun a b => sortKey b ≤ sortKey a) (list_tasks now limit st).2.1 ∧
    ((list_tasks now limit st).2.2 = st.tasks.any (fun kv => isExpired now kv.2)) ∧
    (∀ t ∈ (list_tasks now limit st).2.1, ∀ v, parsedStart t = some v →
      now - v ≤ taskRetention) := by
  have hidem : (st.tasks.filter (fun kv => !isExpired now kv.2)).filter
      (fun kv => !isExpired now kv.2) = st.tasks.filter (fun kv => !isExpired now kv.2) :=
    filter_idem _ _
  refine ⟨?_, rfl, ?_, ?_, ?_, ?_, ?_, ?_⟩
  · simp [list_tasks, hidem]
  · simp [list_tasks, hidem]
  · exact perm_sortDesc _
  · exact List.length_take_le _ _
  · have hsub : List.Sublist (list_tasks now limit st).2.1
        (sortDesc (((st.tasks.filter (fun kv => !isExpired now kv.2)).filter
          (fun kv => !isExpired now kv.2)).map (·.2))) :=
      List.take_sublist limit _
    exact List.Pairwise.sublist hsub (sorted_sortDesc _)
  · simp [list_tasks, filter_neg_filter, any_eq_not_isEmpty_filter]
  · intro t ht v hv
    have ht2 : t ∈ sortDesc (((st.tasks.filter (fun kv => !isExpired now kv.2)).filter
        (fun kv => !isExpired now kv.2)).map (·.2)) := by
      have := ht
      simp only [list_tasks] at this
      exact List.take_subset _ _ this
    have ht3 : t ∈ ((st.tasks.filter (fun kv => !isExpired now kv.2)).filter
        (fun kv => !isExpired now kv.2)).map (·.2) :=
      (perm_sortDesc _).mem_iff.mp ht2
    rcases List.mem_map.mp ht3 with ⟨kv, hkv, hkvt⟩
    have hne : isExpired now kv.2 = false := by
      have h := List.of_mem_filter hkv
      simpa using h
    rw [hkvt] at hne
    unfold isExpired at hne
    rw [hv] at hne
    simp only [Option.elim_some, decide_eq_false_iff_not, not_lt] at hne
    exact hne

/-! ## Claims about the durable stores and the review cache -/

/-- Claim C3, counterexample: the review store's `load()` drops an
out-of-window record from memory yet leaves the file untouched — no
`save()` of the filtered set is performed. -/
theorem claim_C3_counterexample :
    (load_reviews 200 ⟨[], some [("100", ⟨"100", some "r", "g", some "o", none⟩)]⟩).reviews
      = [] ∧
    (load_reviews 200 ⟨[], some [("100", ⟨"100", some "r", "g", some "o", none⟩)]⟩).rfile
      = some [("100", ⟨"100", some "r", "g", some "o", none⟩)] := by
  constructor
  · decide
  · rfl

/-- Claim C3, amended: the task store's `load()` re-saves the filtered
set exactly when some record was dropped as expired (records dropped for
a missing or unparsable `start_time` trigger no save), while the review
store's `load()` filters only in memory and never saves. -/
theorem claim_C3 (now nowDays : Int) (ts data : List (String × TaskRecord))
    (rs rdata : List (String × ReviewRecord)) :
    ((load_tasks now ⟨ts, some data⟩).file =
      if data.any (fun kv => isExpired now kv.2) then
        some (data.filter (fun kv => taskValid now kv.2))
      else some data) ∧
    (load_tasks now ⟨ts, some data⟩).tasks = data.filter (fun kv => taskValid now kv.2) ∧
    (load_reviews nowDays ⟨rs, some rdata⟩).rfile = some rdata ∧
    (load_reviews nowDays ⟨rs, some rdata⟩).reviews
      = rdata.filter (fun kv => reviewValid nowDays kv.1) := by
  refine ⟨?_, ?_, rfl, rfl⟩
  · rw [load_tasks_some, loadFilterTasks_eq]
    by_cases h : data.any (fun kv => isExpired now kv.2)
    · simp [h, save_tasks, filter_idem]
    · simp [h]
  · rw [load_tasks_some, loadFilterTasks_eq]
    by_cases h : data.any (fun kv => isExpired now kv.2) <;> simp [h, save_tasks]

/-- Claim C2, counterexample: when generation fails, the error-shaped
record is NOT stored in the cache (the state is unchanged and the key is
still absent), so a second same-day call without `force_refresh` invokes
the generation collaborator again. -/
theorem claim_C2_counterexample :
    (get_today_review "2026-10-12" "g1" false (.exn "boom") ⟨[], none⟩).1 = ⟨[], none⟩ ∧
    dictGet "2026-10-12"
        (get_today_review "2026-10-12" "g1" false (.exn "boom") ⟨[], none⟩).1.reviews
      = none ∧
    (get_today_review "2026-10-12" "g1" false (.exn "boom")
        (get_today_review "2026-10-12" "g1" false (.exn "boom") ⟨[], none⟩).1).2.2 = true :=
  ⟨rfl, rfl, rfl⟩

/-- Claim C2, amended: a failing generation returns the error-shaped
record WITHOUT caching it — the state is left untouched and a second
same-day call invokes the collaborator again; only a successful
generation is cached (and persisted), after which same-day calls without
`force_refresh` return the cached record and invoke nothing. -/
theorem claim_C2 (st : MarketState) (today genAt genAt2 m m2 rep : String) (ov : Overview)
    (h : dictGet today st.reviews = none) :
    (get_today_review today genAt false (.exn m) st)
      = (st, mkErrReview today genAt m, true) ∧
    (get_today_review today genAt2 false (.exn m2)
        (get_today_review today genAt false (.exn m) st).1).2.2 = true ∧
    (get_today_review today genAt false (.ok rep ov) st).1.reviews
      = dictInsert today (mkOkReview today genAt rep ov) st.reviews ∧
    (get_today_review today genAt false (.ok rep ov) st).1.rfile
      = some (dictInsert today (mkOkReview today genAt rep ov) st.reviews) ∧
    (get_today_review today genAt2 false (.exn m2)
        (get_today_review today genAt false (.ok rep ov) st).1).2.2 = false ∧
    (get_today_review today genAt2 false (.exn m2)
        (get_today_review today genAt false (.ok rep ov) st).1).2.1
      = mkOkReview today genAt rep ov := by
  refine ⟨?_, ?_, ?_, ?_, ?_, ?_⟩ <;>
    simp [get_today_review, save_reviews, h, dictGet_dictInsert]

/-- Witness for C2's amended theorem at a concrete empty cache. -/
theorem claim_C2_witness :
    dictGet "2026-01-02" (MarketState.reviews ⟨[], none⟩) = none ∧
    (get_today_review "2026-01-02" "g" false (.exn "boom") ⟨[], none⟩)
      = (⟨[], none⟩, mkErrReview "2026-01-02" "g" "boom", true) :=
  ⟨rfl, (claim_C2 ⟨[], none⟩ "2026-01-02" "g" "g2" "boom" "b2" "rep" "ov" rfl).1⟩

/-! ## Config service (`ConfigService`)

The `.env` file is modelled as its text content (a `String` the caller
threads through `read_env_text`/`write_env_text`).  Python string
primitives are embedded over `List Char`:
* `str.strip()` strips the ASCII whitespace ` \t\n\r\x0b\x0c` (the
  embedding is ASCII-only; Unicode spaces are out of the model);
* `str.splitlines()` breaks at `\n`, `\r\n`, `\r`, `\x0b`, `\x0c`
  (again only the ASCII line breaks);
* the regex `^(\s*STOCK_LIST\s*=\s*)(.*?)(\s*)$` is unfolded into its
  deterministic effect on a line: optional leading whitespace, the
  literal `STOCK_LIST`, optional whitespace, `=`, then the lazily
  matched value (whitespace after `=` belongs to the prefix group, the
  maximal trailing whitespace run to the suffix group). -/

/-- Python `\s` / `str.strip` whitespace: the characters for which
`str.isspace()` holds (TAB..CR, FS..US, SPACE, NEL, NBSP, OGHAM SPACE
MARK, EN QUAD..HAIR SPACE, LINE/PARAGRAPH SEPARATOR, NARROW NBSP,
MEDIUM MATHEMATICAL SPACE, IDEOGRAPHIC SPACE); `re`'s `\s` matches the
same set on `str` patterns. -/
def pyIsSpace (c : Char) : Bool :=
  c = ' ' || c = '\t' || c = '\n' || c = '\r' || c = '\x0b' || c = '\x0c' ||
  c = '\x1c' || c = '\x1d' || c = '\x1e' || c = '\x1f' || c = '\x85' ||
  c = '\xa0' ||
  c = '\u1680' ||
  c = '\u2000' ||
  c = '\u2001' ||
  c = '\u2002' ||
  c = '\u2003' ||
  c = '\u2004' ||
  c = '\u2005' ||
  c = '\u2006' ||
  c = '\u2007' ||
  c = '\u2008' ||
  c = '\u2009' ||
  c = '\u200a' ||
  c = '\u2028' ||
  c = '\u2029' ||
  c = '\u202f' ||
  c = '\u205f' ||
  c = '\u3000'

/-- Python `str.splitlines` boundaries other than `'\n'`: CR, VT, FF,
FS, GS, RS, NEL, LINE SEPARATOR, PARAGRAPH SEPARATOR. -/
def nonNLBreak (c : Char) : Bool :=
  c = '\r' || c = '\x0b' || c = '\x0c' || c = '\x1c' || c = '\x1d' ||
  c = '\x1e' || c = '\x85' || c = '\u2028' || c = '\u2029'

/-- Python `str.splitlines` boundaries. -/
def isLineBreak (c : Char) : Bool :=
  c = '\n' || nonNLBreak c

/-- `str.splitlines()` worker; `acc` is the current line, reversed.
`\r\n` counts as one break; a trailing break opens no empty final line. -/
def splitlinesGo : List Char → List Char → List (List Char)
  | [], acc => if acc.isEmpty then [] else [acc.reverse]
  | '\r' :: '\n' :: rest, acc => acc.reverse :: splitlinesGo rest []
  | c :: rest, acc =>
    if isLineBreak c then acc.reverse :: splitlinesGo rest []
    else splitlinesGo rest (c :: acc)

/-- `str.splitlines()`. -/
def pySplitlines (cs : List Char) : List (List Char) := splitlinesGo cs []

/-- `str.lstrip()`. -/
def lstrip (cs : List Char) : List Char := cs.dropWhile pyIsSpace

/-- `str.rstrip()`. -/
def rstrip (cs : List Char) : List Char := (cs.reverse.dropWhile pyIsSpace).reverse

/-- `str.strip()`. -/
def pyStrip (cs : List Char) : List Char := rstrip (lstrip cs)

/-- `str.split(sep)` for a one-character separator: consecutive
separators and ends yield empty parts, and `''.split(sep) == ['']`. -/
def splitOnChar (sep : Char) : List Char → List (List Char)
  | [] => [[]]
  | c :: rest =>
    if c = sep then [] :: splitOnChar sep rest
    else
      match splitOnChar sep rest with
      | [] => [[c]]
      | p :: ps => (c :: p) :: ps

/-- `sep.join(parts)` for a one-character separator. -/
def joinSep (sep : Char) : List (List Char) → List Char
  | [] => []
  | [p] => p
  | p :: ps => p ++ sep :: joinSep sep ps

/-- `value.replace("\n", ",")`. -/
def nlToComma (cs : List Char) : List Char := cs.map (fun c => if c = '\n' then ',' else c)

/-- The parts of `ConfigService._normalize_stock_list`: replace
newlines with commas, split on commas, strip each part, drop empties. -/
def normalizeParts (value : String) : List (List Char) :=
  ((splitOnChar ',' (nlToComma value.data)).map pyStrip).filter (fun p => !p.isEmpty)

/-- `ConfigService._normalize_stock_list`: the cleaned parts re-joined
with commas. -/
def normalize_stock_list (value : String) : String :=
  ⟨joinSep ',' (normalizeParts value)⟩

/-- The literal `STOCK_LIST` of the `_STOCK_LIST_RE` regex. -/
def stockKey : List Char := "STOCK_LIST".data

/-- The effect of `_STOCK_LIST_RE.match(line)`: `some (prefix group,
value group, suffix group)` when the line is whitespace*, `STOCK_LIST`,
whitespace*, `=`, anything; `none` otherwise.  The greedy `\s*` of the
prefix takes the whitespace after `=`; the greedy `(\s*)$` suffix takes
the maximal trailing whitespace run; the lazy `(.*?)` value is what is
left between them. -/
def matchStockLine (line : List Char) : Option (List Char × List Char × List Char) :=
  let w1 := line.takeWhile pyIsSpace
  let r1 := line.dropWhile pyIsSpace
  if stockKey.isPrefixOf r1 then
    let r2 := r1.drop stockKey.length
    let w2 := r2.takeWhile pyIsSpace
    match r2.dropWhile pyIsSpace with
    | [] => none
    | c :: r4 =>
      if c = '=' then
        some (w1 ++ stockKey ++ w2 ++ '=' :: r4.takeWhile pyIsSpace,
              (r4.dropWhile pyIsSpace).reverse.dropWhile pyIsSpace |>.reverse,
              (r4.dropWhile pyIsSpace).reverse.takeWhile pyIsSpace |>.reverse)
      else none
  else none

/-- One line of the rewrite loop of `_update_stock_list`: a matching
line becomes `prefix + new_value + suffix`, a non-matching line is kept. -/
def replaceLine (newV : List Char) (l : List Char) : List Char :=
  match matchStockLine l with
  | some (p, _, s) => p ++ newV ++ s
  | none => l

/-- Whether some line matched (`replaced` in `_update_stock_list`). -/
def anyStockLine (ls : List (List Char)) : Bool :=
  ls.any (fun l => (matchStockLine l).isSome)

/-- The appended line `f"STOCK_LIST={new_value}"`. -/
def stockLineFor (n : List Char) : List Char := stockKey ++ '=' :: n

/-- The blank-line padding of `_update_stock_list`: when the last line's
strip is non-empty, one empty line is appended (`out_lines.append("")`). -/
def blankPadded (outLines : List (List Char)) : List (List Char) :=
  match outLines.getLast? with
  | some last => if (pyStrip last).isEmpty then outLines else outLines ++ [[]]
  | none => outLines

/-- `trailing_newline = env_text.endswith("\n") if env_text else True`. -/
def trailingNLOf (envText : String) : Bool :=
  match envText.data.getLast? with
  | none => true
  | some c => c = '\n'

/-- The output lines of `_update_stock_list`: every matching line
rewritten in place; when none matched, `STOCK_LIST=<value>` appended
after the blank padding. -/
def updatedLines (envText : String) (n : List Char) : List (List Char) :=
  if anyStockLine (pySplitlines envText.data) then
    (pySplitlines envText.data).map (replaceLine n)
  else
    blankPadded ((pySplitlines envText.data).map (replaceLine n)) ++ [stockLineFor n]

/-- `ConfigService._update_stock_list`: rewrite every matching line in
place; when none matched, append `STOCK_LIST=<value>` (preceded by one
blank line when the last line is not blank); re-join with `\n`, keeping
a trailing newline when the input had one (or was empty). -/
def update_stock_list (envText newValue : String) : String :=
  ⟨joinSep '\n' (updatedLines envText newValue.data) ++
    (if trailingNLOf envText then ['\n'] else [])⟩

/-- The double-quote character. -/
def quoteChar1 : Char := '"'

/-- The single-quote character (code point 39). -/
def quoteChar2 : Char := Char.ofNat 39

/-- `raw.startswith(q) and raw.endswith(q)` for a one-character `q`. -/
def startsEndsWith (q : Char) (raw : List Char) : Bool :=
  match raw.head?, raw.getLast? with
  | some a, some b => a = q && b = q
  | _, _ => false

/-- The quote test of `_extract_stock_list`. -/
def quoteWrapped (raw : List Char) : Bool :=
  startsEndsWith quoteChar1 raw || startsEndsWith quoteChar2 raw

/-- `raw[1:-1]` when quote-wrapped, else `raw`. -/
def dequote (raw : List Char) : List Char :=
  if quoteWrapped raw then (raw.drop 1).dropLast else raw

/-- The scan of `_extract_stock_list`: the first matching line's value,
stripped and dequoted; `""` when no line matches. -/
def extractLines : List (List Char) → List Char
  | [] => []
  | l :: rest =>
    match matchStockLine l with
    | some (_, v, _) => dequote (pyStrip v)
    | none => extractLines rest

/-- `ConfigService._extract_stock_list` over the env text. -/
def extract_stock_list (envText : String) : String :=
  ⟨extractLines (pySplitlines envText.data)⟩

/-- `ConfigService.get_stock_list`: read the env text (threaded as the
argument) and extract. -/
def get_stock_list (envText : String) : String := extract_stock_list envText

/-- `ConfigService.set_stock_list`: normalize, rewrite the env text,
return (the written env text, the normalized list the method returns). -/
def set_stock_list (envText value : String) : String × String :=
  let normalized := normalize_stock_list value
  (update_stock_list envText normalized, normalized)

/-! ## Whitespace and strip lemmas -/

/-- The first character (if any) is not whitespace. -/
def headNotSpace : List Char → Bool
  | [] => true
  | c :: _ => !pyIsSpace c

/-- Every character is whitespace. -/
def allSpace (w : List Char) : Bool := w.all pyIsSpace

/-- Both ends are free of whitespace (the shape `str.strip` produces). -/
def stripOK (p : List Char) : Bool := headNotSpace p && headNotSpace p.reverse

theorem dropWhile_eq_self_of_headNotSpace {p : List Char}
    (h : headNotSpace p = true) : p.dropWhile pyIsSpace = p := by
  cases p with
  | nil => rfl
  | cons c t =>
    simp only [headNotSpace, Bool.not_eq_true'] at h
    simp [List.dropWhile_cons, h]

theorem takeWhile_eq_nil_of_headNotSpace {p : List Char}
    (h : headNotSpace p = true) : p.takeWhile pyIsSpace = [] := by
  cases p with
  | nil => rfl
  | cons c t =>
    simp only [headNotSpace, Bool.not_eq_true'] at h
    simp [List.takeWhile_cons, h]

theorem takeWhile_append_allSpace {w r : List Char}
    (hw : allSpace w = true) (hr : headNotSpace r = true) :
    (w ++ r).takeWhile pyIsSpace = w := by
  induction w with
  | nil => simpa using takeWhile_eq_nil_of_headNotSpace hr
  | cons c t ih =>
    simp only [allSpace, List.all_cons, Bool.and_eq_true] at hw
    simp [List.takeWhile_cons, hw.1, ih (by simpa [allSpace] using hw.2)]

theorem dropWhile_append_allSpace {w r : List Char}
    (hw : allSpace w = true) (hr : headNotSpace r = true) :
    (w ++ r).dropWhile pyIsSpace = r := by
  induction w with
  | nil => simpa using dropWhile_eq_self_of_headNotSpace hr
  | cons c t ih =>
    simp only [allSpace, List.all_cons, Bool.and_eq_true] at hw
    simp [List.dropWhile_cons, hw.1, ih (by simpa [allSpace] using hw.2)]

theorem headNotSpace_dropWhile (cs : List Char) :
    headNotSpace (cs.dropWhile pyIsSpace) = true := by
  induction cs with
  | nil => rfl
  | cons c t ih =>
    by_cases h : pyIsSpace c = true
    · simpa [List.dropWhile_cons, h] using ih
    · simp only [Bool.not_eq_true] at h
      simp [List.dropWhile_cons, h, headNotSpace]

theorem allSpace_takeWhile (cs : List Char) :
    allSpace (cs.takeWhile pyIsSpace) = true := by
  rw [allSpace, List.all_eq_true]
  intro a ha
  exact List.mem_takeWhile_imp ha

theorem allSpace_reverse {w : List Char} (h : allSpace w = true) :
    allSpace w.reverse = true := by
  simpa [allSpace] using h

theorem rstrip_decomp (x : List Char) :
    rstrip x ++ (x.reverse.takeWhile pyIsSpace).reverse = x := by
  rw [rstrip, ← List.reverse_append, List.takeWhile_append_dropWhile, List.reverse_reverse]

theorem headNotSpace_rstrip {x : List Char} (h : headNotSpace x = true) :
    headNotSpace (rstrip x) = true := by
  cases hr : rstrip x with
  | nil => rfl
  | cons c t =>
    have hx := rstrip_decomp x
    rw [hr] at hx
    rw [← hx] at h
    simpa [headNotSpace] using h

theorem headNotSpace_reverse_rstrip (x : List Char) :
    headNotSpace (rstrip x).reverse = true := by
  rw [rstrip, List.reverse_reverse]
  exact headNotSpace_dropWhile _

theorem stripOK_pyStrip (q : List Char) : stripOK (pyStrip q) = true := by
  rw [stripOK, Bool.and_eq_true]
  exact ⟨headNotSpace_rstrip (headNotSpace_dropWhile q), headNotSpace_reverse_rstrip _⟩

theorem pyStrip_eq_self_of_stripOK {p : List Char} (h : stripOK p = true) :
    pyStrip p = p := by
  rw [stripOK, Bool.and_eq_true] at h
  rw [pyStrip, lstrip, dropWhile_eq_self_of_headNotSpace h.1, rstrip,
    dropWhile_eq_self_of_headNotSpace h.2, List.reverse_reverse]

theorem rstrip_append_allSpace {n w : List Char}
    (hw : allSpace w = true) (hn : headNotSpace n.reverse = true) :
    rstrip (n ++ w) = n := by
  rw [rstrip, List.reverse_append, dropWhile_append_allSpace (allSpace_reverse hw) hn,
    List.reverse_reverse]

theorem mem_of_mem_pyStrip {a : Char} {p : List Char} (h : a ∈ pyStrip p) : a ∈ p := by
  rw [pyStrip, rstrip, lstrip] at h
  rw [List.mem_reverse] at h
  have h1 := (List.dropWhile_sublist pyIsSpace).subset h
  rw [List.mem_reverse] at h1
  exact (List.dropWhile_sublist pyIsSpace).subset h1

/-! ## Split/join lemmas -/

theorem splitOnChar_ne_nil (sep : Char) (cs : List Char) : splitOnChar sep cs ≠ [] := by
  induction cs with
  | nil => simp [splitOnChar]
  | cons c rest ih =>
    by_cases h : c = sep
    · simp [splitOnChar, h]
    · cases hs : splitOnChar sep rest with
      | nil => exact absurd hs ih
      | cons p ps => simp [splitOnChar, h, hs]

theorem sep_not_mem_splitOnChar (sep : Char) (cs : List Char) :
    ∀ p ∈ splitOnChar sep cs, sep ∉ p := by
  induction cs with
  | nil =>
    intro p hp
    simp [splitOnChar] at hp
    simp [hp]
  | cons c rest ih =>
    intro p hp
    by_cases h : c = sep
    · rw [splitOnChar, if_pos h] at hp
      rcases List.mem_cons.mp hp with h1 | h1
      · simp [h1]
      · exact ih p h1
    · rw [splitOnChar, if_neg h] at hp
      cases hs : splitOnChar sep rest with
      | nil => exact absurd hs (splitOnChar_ne_nil sep rest)
      | cons q ps =>
        rw [hs] at hp
        rcases List.mem_cons.mp hp with h1 | h1
        · subst h1
          intro hmem
          rcases List.mem_cons.mp hmem with h2 | h2
          · exact h h2.symm
          · exact ih q (hs ▸ List.mem_cons_self q ps) h2
        · exact ih p (hs ▸ List.mem_cons.mpr (Or.inr h1))

theorem mem_of_mem_splitOnChar (sep : Char) (cs : List Char) :
    ∀ p ∈ splitOnChar sep cs, ∀ a ∈ p, a ∈ cs := by
  induction cs with
  | nil =>
    intro p hp a ha
    simp [splitOnChar] at hp
    subst hp
    simp at ha
  | cons c rest ih =>
    intro p hp a ha
    by_cases h : c = sep
    · rw [splitOnChar, if_pos h] at hp
      rcases List.mem_cons.mp hp with h1 | h1
      · subst h1; simp at ha
      · exact List.mem_cons.mpr (Or.inr (ih p h1 a ha))
    · rw [splitOnChar, if_neg h] at hp
      cases hs : splitOnChar sep rest with
      | nil => exact absurd hs (splitOnChar_ne_nil sep rest)
      | cons q ps =>
        rw [hs] at hp
        rcases List.mem_cons.mp hp with h1 | h1
        · subst h1
          rcases List.mem_cons.mp ha with h2 | h2
          · exact List.mem_cons.mpr (Or.inl h2)
          · exact List.mem_cons.mpr (Or.inr (ih q (hs ▸ List.mem_cons_self q ps) a h2))
        · exact List.mem_cons.mpr (Or.inr (ih p (hs ▸ List.mem_cons.mpr (Or.inr h1)) a ha))

theorem splitOnChar_of_not_mem {sep : Char} {p : List Char} (h : sep ∉ p) :
    splitOnChar sep p = [p] := by
  induction p with
  | nil => rfl
  | cons c rest ih =>
    have hc : ¬ c = sep := fun hc => h (by simp [hc])
    have hr : sep ∉ rest := fun hr => h (List.mem_cons.mpr (Or.inr hr))
    rw [splitOnChar, if_neg hc, ih hr]

theorem splitOnChar_append_cons {sep : Char} {p : List Char} (cs : List Char)
    (h : sep ∉ p) :
    splitOnChar sep (p ++ sep :: cs) = p :: splitOnChar sep cs := by
  induction p with
  | nil => simp [splitOnChar]
  | cons c rest ih =>
    have hc : ¬ c = sep := fun hc => h (by simp [hc])
    have hr : sep ∉ rest := fun hr => h (List.mem_cons.mpr (Or.inr hr))
    rw [List.cons_append, splitOnChar, if_neg hc, ih hr]

theorem splitOnChar_joinSep {sep : Char} {ps : List (List Char)}
    (h : ∀ p ∈ ps, sep ∉ p) (hne : ps ≠ []) :
    splitOnChar sep (joinSep sep ps) = ps := by
  induction ps with
  | nil => exact absurd rfl hne
  | cons p tl ih =>
    cases tl with
    | nil => exact splitOnChar_of_not_mem (h p (List.mem_cons_self p []))
    | cons q tl' =>
      rw [show joinSep sep (p :: q :: tl') = p ++ sep :: joinSep sep (q :: tl') from rfl,
        splitOnChar_append_cons _ (h p (List.mem_cons_self p (q :: tl'))),
        ih (fun r hr => h r (List.mem_cons.mpr (Or.inr hr))) (by simp)]

theorem mem_joinSep {sep a : Char} {ps : List (List Char)}
    (h : a ∈ joinSep sep ps) : a = sep ∨ ∃ p ∈ ps, a ∈ p := by
  induction ps with
  | nil => simp [joinSep] at h
  | cons p tl ih =>
    cases tl with
    | nil =>
      right
      exact ⟨p, List.mem_cons_self p [], h⟩
    | cons q tl' =>
      rw [show joinSep sep (p :: q :: tl') = p ++ sep :: joinSep sep (q :: tl') from rfl] at h
      rcases List.mem_append.mp h with h1 | h1
      · exact Or.inr ⟨p, List.mem_cons_self p _, h1⟩
      · rcases List.mem_cons.mp h1 with h2 | h2
        · exact Or.inl h2
        · rcases ih h2 with h3 | ⟨r, hr, har⟩
          · exact Or.inl h3
          · exact Or.inr ⟨r, List.mem_cons.mpr (Or.inr hr), har⟩

theorem joinSep_ne_nil {sep : Char} {ps : List (List Char)}
    (hne : ps ≠ []) (h : ∀ p ∈ ps, p ≠ []) : joinSep sep ps ≠ [] := by
  cases ps with
  | nil => exact absurd rfl hne
  | cons p tl =>
    cases tl with
    | nil => exact h p (List.mem_cons_self p [])
    | cons q tl' =>
      rw [show joinSep sep (p :: q :: tl') = p ++ sep :: joinSep sep (q :: tl') from rfl]
      simp

theorem headNotSpace_append_of_ne_nil {p r : List Char}
    (hne : p ≠ []) (h : headNotSpace p = true) : headNotSpace (p ++ r) = true := by
  cases p with
  | nil => exact absurd rfl hne
  | cons c t => simpa [headNotSpace] using h

theorem stripOK_joinSep {sep : Char} {ps : List (List Char)}
    (h : ∀ p ∈ ps, p ≠ [] ∧ stripOK p = true) : stripOK (joinSep sep ps) = true := by
  induction ps with
  | nil => rfl
  | cons p tl ih =>
    cases tl with
    | nil => exact (h p (List.mem_cons_self p [])).2
    | cons q tl' =>
      obtain ⟨hpne, hpok⟩ := h p (List.mem_cons_self p _)
      rw [stripOK, Bool.and_eq_true] at hpok
      have hrec := ih (fun r hr => h r (List.mem_cons.mpr (Or.inr hr)))
      rw [stripOK, Bool.and_eq_true] at hrec
      have hJne : joinSep sep (q :: tl') ≠ [] :=
        joinSep_ne_nil (by simp) (fun r hr => (h r (List.mem_cons.mpr (Or.inr hr))).1)
      rw [show joinSep sep (p :: q :: tl') = p ++ sep :: joinSep sep (q :: tl') from rfl,
        stripOK, Bool.and_eq_true]
      constructor
      · exact headNotSpace_append_of_ne_nil hpne hpok.1
      · rw [List.reverse_append, List.reverse_cons]
        have hJr : (joinSep sep (q :: tl')).reverse ≠ [] := by
          simpa using hJne
        rw [List.append_assoc]
        exact headNotSpace_append_of_ne_nil hJr hrec.2

/-! ## Normalization lemmas -/

theorem newline_not_mem_nlToComma (cs : List Char) : '\n' ∉ nlToComma cs := by
  intro h
  rcases List.mem_map.mp h with ⟨c, _, hc⟩
  by_cases hcn : c = '\n'
  · rw [if_pos hcn] at hc
    exact absurd hc (by decide)
  · rw [if_neg hcn] at hc
    exact hcn hc

theorem map_eq_self_of_mem {α : Type} {f : α → α} {l : List α}
    (h : ∀ a ∈ l, f a = a) : l.map f = l := by
  induction l with
  | nil => rfl
  | cons a t ih =>
    rw [List.map_cons, h a (List.mem_cons_self a t),
      ih (fun b hb => h b (List.mem_cons.mpr (Or.inr hb)))]

theorem normalizeParts_facts (value : String) :
    ∀ p ∈ normalizeParts value, p ≠ [] ∧ stripOK p = true ∧ ',' ∉ p ∧ '\n' ∉ p := by
  intro p hp
  rw [normalizeParts] at hp
  have hmem := List.mem_of_mem_filter hp
  have hne := List.of_mem_filter hp
  rcases List.mem_map.mp hmem with ⟨q, hq, hpq⟩
  subst hpq
  refine ⟨?_, stripOK_pyStrip q, ?_, ?_⟩
  · intro hnil
    rw [hnil] at hne
    simp at hne
  · intro hcm
    exact sep_not_mem_splitOnChar ',' _ q hq (mem_of_mem_pyStrip hcm)
  · intro hnl
    exact newline_not_mem_nlToComma value.data
      (mem_of_mem_splitOnChar ',' _ q hq '\n' (mem_of_mem_pyStrip hnl))

theorem normalize_data (value : String) :
    (normalize_stock_list value).data = joinSep ',' (normalizeParts value) := rfl

theorem stripOK_normalize (value : String) :
    stripOK (normalize_stock_list value).data = true := by
  rw [normalize_data]
  exact stripOK_joinSep (fun p hp =>
    ⟨(normalizeParts_facts value p hp).1, (normalizeParts_facts value p hp).2.1⟩)

theorem newline_not_mem_normalize (value : String) :
    '\n' ∉ (normalize_stock_list value).data := by
  rw [normalize_data]
  intro h
  rcases mem_joinSep h with h1 | ⟨p, hp, hmem⟩
  · exact absurd h1 (by decide)
  · exact (normalizeParts_facts value p hp).2.2.2 hmem

theorem normalize_stock_idem (value : String) :
    normalize_stock_list (normalize_stock_list value) = normalize_stock_list value := by
  cases hps : normalizeParts value with
  | nil =>
    have hN : normalize_stock_list value = "" := by
      rw [normalize_stock_list, hps]
      rfl
    rw [hN]
    decide
  | cons p0 tl =>
    have hfacts := normalizeParts_facts value
    rw [hps] at hfacts
    have hnl : nlToComma (normalize_stock_list value).data
        = (normalize_stock_list value).data := by
      rw [nlToComma]
      refine map_eq_self_of_mem (fun c hc => if_neg (fun hcn => ?_))
      subst hcn
      exact newline_not_mem_normalize value hc
    have hparts2 : normalizeParts (normalize_stock_list value) = p0 :: tl := by
      rw [normalizeParts, hnl,
        normalize_data, hps,
        splitOnChar_joinSep (fun p hp => (hfacts p hp).2.2.1) (by simp),
        map_eq_self_of_mem (fun p hp => pyStrip_eq_self_of_stripOK (hfacts p hp).2.1),
        List.filter_eq_self.mpr (fun p hp => by
          simpa using (hfacts p hp).1)]
    rw [show normalize_stock_list (normalize_stock_list value)
        = ⟨joinSep ',' (normalizeParts (normalize_stock_list value))⟩ from rfl,
      hparts2, normalize_stock_list, hps]

/-! ## Regex-match lemmas -/

theorem isPrefixOf_append_self (l r : List Char) : l.isPrefixOf (l ++ r) = true := by
  induction l with
  | nil => simp [List.isPrefixOf]
  | cons a as ih => simp [List.isPrefixOf, ih]

theorem matchStockLine_eq_of (l r4 : List Char)
    (h1 : stockKey.isPrefixOf (l.dropWhile pyIsSpace) = true)
    (h2 : ((l.dropWhile pyIsSpace).drop stockKey.length).dropWhile pyIsSpace = '=' :: r4) :
    matchStockLine l = some
      (l.takeWhile pyIsSpace ++ stockKey ++
        ((l.dropWhile pyIsSpace).drop stockKey.length).takeWhile pyIsSpace ++
        '=' :: r4.takeWhile pyIsSpace,
       rstrip (r4.dropWhile pyIsSpace),
       ((r4.dropWhile pyIsSpace).reverse.takeWhile pyIsSpace).reverse) := by
  unfold matchStockLine
  simp only [h1, if_true, h2, rstrip]

theorem matchStockLine_some {l p v s : List Char}
    (h : matchStockLine l = some (p, v, s)) :
    ∃ r4 : List Char,
      ((l.dropWhile pyIsSpace).drop stockKey.length).dropWhile pyIsSpace = '=' :: r4 ∧
      stockKey.isPrefixOf (l.dropWhile pyIsSpace) = true ∧
      p = l.takeWhile pyIsSpace ++ stockKey ++
          ((l.dropWhile pyIsSpace).drop stockKey.length).takeWhile pyIsSpace ++
          '=' :: r4.takeWhile pyIsSpace ∧
      v = rstrip (r4.dropWhile pyIsSpace) ∧
      s = ((r4.dropWhile pyIsSpace).reverse.takeWhile pyIsSpace).reverse := by
  by_cases h1 : stockKey.isPrefixOf (l.dropWhile pyIsSpace) = true
  · cases h2 : ((l.dropWhile pyIsSpace).drop stockKey.length).dropWhile pyIsSpace with
    | nil =>
      unfold matchStockLine at h
      simp only [h1, if_true, h2] at h
      exact Option.noConfusion h
    | cons c r4 =>
      by_cases h3 : c = '='
      · subst h3
        rw [matchStockLine_eq_of l r4 h1 h2, Option.some.injEq, Prod.mk.injEq,
          Prod.mk.injEq] at h
        exact ⟨r4, rfl, h1, h.1.symm, h.2.1.symm, h.2.2.symm⟩
      · unfold matchStockLine at h
        simp only [h1, if_true, h2, h3, if_false] at h
        exact Option.noConfusion h
  · unfold matchStockLine at h
    simp only [h1, if_false] at h
    simp at h

theorem dropWhile_allSpace {w : List Char} (h : allSpace w = true) :
    w.dropWhile pyIsSpace = [] := by
  induction w with
  | nil => rfl
  | cons c t ih =>
    rw [allSpace, List.all_cons, Bool.and_eq_true] at h
    rw [List.dropWhile_cons, if_pos h.1]
    exact ih h.2

/-- Substituting a stripped value `n` between the prefix and suffix
groups of a matched line yields a line that matches again, with value
group exactly `n`. -/
theorem matchStockLine_value (w1 w2 w3 s n : List Char)
    (hw1 : allSpace w1 = true) (hw2 : allSpace w2 = true) (hw3 : allSpace w3 = true)
    (hs : allSpace s = true) (hn : stripOK n = true) :
    (matchStockLine (w1 ++ (stockKey ++ (w2 ++ '=' :: (w3 ++ (n ++ s)))))).map
      (fun x => x.2.1) = some n := by
  have hT : headNotSpace (stockKey ++ (w2 ++ '=' :: (w3 ++ (n ++ s)))) = true := rfl
  have hdrop : (w1 ++ (stockKey ++ (w2 ++ '=' :: (w3 ++ (n ++ s))))).dropWhile pyIsSpace
      = stockKey ++ (w2 ++ '=' :: (w3 ++ (n ++ s))) := dropWhile_append_allSpace hw1 hT
  have h1 : stockKey.isPrefixOf
      ((w1 ++ (stockKey ++ (w2 ++ '=' :: (w3 ++ (n ++ s))))).dropWhile pyIsSpace) = true := by
    rw [hdrop]
    exact isPrefixOf_append_self _ _
  have hdrop2 : ((w1 ++ (stockKey ++ (w2 ++ '=' :: (w3 ++ (n ++ s))))).dropWhile
      pyIsSpace).drop stockKey.length = w2 ++ '=' :: (w3 ++ (n ++ s)) := by
    rw [hdrop]
    exact List.drop_left _ _
  have h2 : (((w1 ++ (stockKey ++ (w2 ++ '=' :: (w3 ++ (n ++ s))))).dropWhile
      pyIsSpace).drop stockKey.length).dropWhile pyIsSpace = '=' :: (w3 ++ (n ++ s)) := by
    rw [hdrop2]
    exact dropWhile_append_allSpace hw2 rfl
  rw [stripOK, Bool.and_eq_true] at hn
  have hv : rstrip ((w3 ++ (n ++ s)).dropWhile pyIsSpace) = n := by
    cases n with
    | nil =>
      have hws : allSpace (w3 ++ s) = true := by
        rw [allSpace, List.all_append]
        rw [allSpace] at hw3 hs
        rw [hw3, hs]
        rfl
      show rstrip ((w3 ++ s).dropWhile pyIsSpace) = []
      rw [dropWhile_allSpace hws]
      rfl
    | cons c n' =>
      rw [dropWhile_append_allSpace hw3 (headNotSpace_append_of_ne_nil (by simp) hn.1)]
      exact rstrip_append_allSpace hs hn.2
  rw [matchStockLine_eq_of _ (w3 ++ (n ++ s)) h1 h2]
  simp only [Option.map_some']
  rw [hv]

/-- The suffix group of a match is whitespace-only. -/
theorem matchStockLine_suffix_allSpace {l p v s : List Char}
    (h : matchStockLine l = some (p, v, s)) : allSpace s = true := by
  rcases matchStockLine_some h with ⟨r4, _, _, _, _, hs⟩
  subst hs
  exact allSpace_reverse (allSpace_takeWhile _)

/-- A matched line, rewritten to `prefix ++ n ++ suffix` for a stripped
`n`, matches again with value group `n`. -/
theorem matchStockLine_replaced (l p v s n : List Char)
    (h : matchStockLine l = some (p, v, s)) (hn : stripOK n = true) :
    (matchStockLine (p ++ n ++ s)).map (fun x => x.2.1) = some n := by
  rcases matchStockLine_some h with ⟨r4, h2, h1, hp, hv, hsfx⟩
  have hres := matchStockLine_value (l.takeWhile pyIsSpace)
    (((l.dropWhile pyIsSpace).drop stockKey.length).takeWhile pyIsSpace)
    (r4.takeWhile pyIsSpace) s n
    (allSpace_takeWhile l) (allSpace_takeWhile _) (allSpace_takeWhile r4)
    (matchStockLine_suffix_allSpace h) hn
  rw [hp]
  rw [show l.takeWhile pyIsSpace ++ stockKey ++
      ((l.dropWhile pyIsSpace).drop stockKey.length).takeWhile pyIsSpace ++
      '=' :: r4.takeWhile pyIsSpace ++ n ++ s
    = l.takeWhile pyIsSpace ++ (stockKey ++
      (((l.dropWhile pyIsSpace).drop stockKey.length).takeWhile pyIsSpace ++
      '=' :: (r4.takeWhile pyIsSpace ++ (n ++ s)))) by
    simp [List.append_assoc]]
  exact hres

/-! ## Extraction lemmas -/

theorem matchStockLine_nil : matchStockLine [] = none := rfl

theorem matchStockLine_chars {l p v s : List Char}
    (h : matchStockLine l = some (p, v, s)) :
    (∀ a ∈ p, a ∈ l ∨ a ∈ stockKey ∨ a = '=') ∧ (∀ a ∈ s, a ∈ l) := by
  rcases matchStockLine_some h with ⟨r4, h2, h1, hp, hv, hs⟩
  have hr4 : ∀ a ∈ r4, a ∈ l := by
    intro a ha
    have h3 : a ∈ ((l.dropWhile pyIsSpace).drop stockKey.length).dropWhile pyIsSpace := by
      rw [h2]
      exact List.mem_cons.mpr (Or.inr ha)
    have h4 := (List.dropWhile_sublist pyIsSpace).subset h3
    have h5 := (List.drop_sublist stockKey.length _).subset h4
    exact (List.dropWhile_sublist pyIsSpace).subset h5
  constructor
  · intro a ha
    subst hp
    rcases List.mem_append.mp ha with ha | ha
    · rcases List.mem_append.mp ha with ha | ha
      · rcases List.mem_append.mp ha with ha | ha
        · exact Or.inl ((List.takeWhile_sublist pyIsSpace).subset ha)
        · exact Or.inr (Or.inl ha)
      · have h4 := (List.takeWhile_sublist pyIsSpace).subset ha
        have h5 := (List.drop_sublist stockKey.length _).subset h4
        exact Or.inl ((List.dropWhile_sublist pyIsSpace).subset h5)
    · rcases List.mem_cons.mp ha with ha | ha
      · exact Or.inr (Or.inr ha)
      · exact Or.inl (hr4 a ((List.takeWhile_sublist pyIsSpace).subset ha))
  · intro a ha
    subst hs
    rw [List.mem_reverse] at ha
    have h3 := (List.takeWhile_sublist pyIsSpace).subset ha
    rw [List.mem_reverse] at h3
    exact hr4 a ((List.dropWhile_sublist pyIsSpace).subset h3)

/-- Lines free of `splitlines` boundaries. -/
def lineOK (l : List Char) : Bool := l.all (fun c => !isLineBreak c)

theorem lineOK_stockKey : lineOK stockKey = true := by decide

theorem lineOK_replaceLine {n l : List Char} (hn : lineOK n = true)
    (hl : lineOK l = true) : lineOK (replaceLine n l) = true := by
  cases hm : matchStockLine l with
  | none => simpa [replaceLine, hm] using hl
  | some x =>
    obtain ⟨p, v, s⟩ := x
    have hchars := matchStockLine_chars hm
    simp only [replaceLine, hm]
    rw [lineOK, List.all_append, List.all_append, Bool.and_eq_true, Bool.and_eq_true]
    rw [lineOK, List.all_eq_true] at hl
    rw [lineOK] at hn
    refine ⟨⟨List.all_eq_true.mpr ?_, hn⟩, List.all_eq_true.mpr ?_⟩
    · intro a ha
      rcases hchars.1 a ha with h3 | h3 | h3
      · exact hl a h3
      · have hsk := lineOK_stockKey
        rw [lineOK, List.all_eq_true] at hsk
        exact hsk a h3
      · subst h3
        decide
    · intro a ha
      exact hl a (hchars.2 a ha)

theorem pyStrip_nil : pyStrip [] = [] := rfl

theorem replaceLine_ne_nil {n l : List Char} {x : List Char × List Char × List Char}
    (hm : matchStockLine l = some x) : replaceLine n l ≠ [] := by
  obtain ⟨p, v, s⟩ := x
  rcases matchStockLine_some hm with ⟨r4, h2, h1, hp, hv, hs⟩
  simp only [replaceLine, hm]
  subst hp
  intro hcon
  simp [stockKey] at hcon

theorem extract_cons_none {l : List Char} {rest : List (List Char)}
    (hm : matchStockLine l = none) :
    extractLines (l :: rest) = extractLines rest := by
  simp [extractLines, hm]

theorem extract_append_noMatch {ls ls2 : List (List Char)}
    (h : ∀ l ∈ ls, matchStockLine l = none) :
    extractLines (ls ++ ls2) = extractLines ls2 := by
  induction ls with
  | nil => rfl
  | cons l tl ih =>
    rw [List.cons_append, extract_cons_none (h l (List.mem_cons_self l tl))]
    exact ih (fun l2 h2 => h l2 (List.mem_cons.mpr (Or.inr h2)))

theorem extract_cons_value {l n : List Char} {rest : List (List Char)}
    (hm : (matchStockLine l).map (fun x => x.2.1) = some n)
    (hn : stripOK n = true) (hq : quoteWrapped n = false) :
    extractLines (l :: rest) = n := by
  cases hm2 : matchStockLine l with
  | none =>
    rw [hm2] at hm
    exact Option.noConfusion hm
  | some x =>
    obtain ⟨q, vv, u⟩ := x
    rw [hm2, Option.map_some', Option.some.injEq] at hm
    simp only [extractLines, hm2]
    simp only at hm
    rw [hm, pyStrip_eq_self_of_stripOK hn, dequote, hq]
    simp

theorem anyStockLine_eq_false {ls : List (List Char)} (h : anyStockLine ls = false) :
    ∀ l ∈ ls, matchStockLine l = none := by
  intro l hl
  rw [anyStockLine, List.any_eq_false] at h
  have h2 := h l hl
  cases hm : matchStockLine l with
  | none => rfl
  | some x =>
    rw [hm] at h2
    simp at h2

theorem map_replaceLine_eq_self {n : List Char} {ls : List (List Char)}
    (h : anyStockLine ls = false) : ls.map (replaceLine n) = ls := by
  refine map_eq_self_of_mem (fun l hl => ?_)
  rw [replaceLine, anyStockLine_eq_false h l hl]

/-- Scanning the rewritten lines: when some line matched, the first
match's value is the substituted `n`; when none matched, the rewrite
changed nothing. -/
theorem extract_map_replace {n : List Char} (hn : stripOK n = true)
    (hq : quoteWrapped n = false) (ls : List (List Char)) :
    extractLines (ls.map (replaceLine n))
      = if anyStockLine ls then n else extractLines ls := by
  induction ls with
  | nil => simp [anyStockLine, extractLines]
  | cons l tl ih =>
    cases hm : matchStockLine l with
    | none =>
      rw [List.map_cons, show replaceLine n l = l by rw [replaceLine, hm],
        extract_cons_none hm, ih, extract_cons_none hm]
      have hany : anyStockLine (l :: tl) = anyStockLine tl := by
        simp [anyStockLine, hm]
      rw [hany]
    | some x =>
      obtain ⟨p, v, s⟩ := x
      have hval := matchStockLine_replaced l p v s n hm hn
      have hany : anyStockLine (l :: tl) = true := by
        simp [anyStockLine, hm]
      rw [List.map_cons, show replaceLine n l = p ++ n ++ s by rw [replaceLine, hm],
        extract_cons_value hval hn hq, hany, if_pos rfl]

/-! ## Splitlines lemmas -/

theorem splitlinesGo_cons_nonbreak (c : Char) (rest acc : List Char)
    (hc : isLineBreak c = false) :
    splitlinesGo (c :: rest) acc = splitlinesGo rest (c :: acc) := by
  have hcr : ¬ c = '\r' := by
    intro h
    subst h
    exact absurd hc (by decide)
  rw [splitlinesGo.eq_3 acc c rest (fun r1 hc2 hr2 => absurd hc2 hcr)]
  simp [hc]

theorem splitlinesGo_cons_break (c : Char) (rest acc : List Char)
    (hc : isLineBreak c = true) :
    splitlinesGo (c :: rest) acc = acc.reverse ::
      splitlinesGo (if c = '\r' && rest.head? == some '\n' then rest.tail else rest) [] := by
  by_cases hcr : c = '\r'
  · subst hcr
    cases rest with
    | nil =>
      rw [splitlinesGo.eq_3 acc '\r' [] (fun r1 _ h => List.noConfusion h)]
      simp [hc]
    | cons c2 rest2 =>
      by_cases hc2 : c2 = '\n'
      · subst hc2
        rw [splitlinesGo.eq_2]
        simp
      · rw [splitlinesGo.eq_3 acc '\r' (c2 :: rest2)
          (fun r1 _ h => hc2 (by simp at h; exact h.1))]
        simp [hc, hc2]
  · rw [splitlinesGo.eq_3 acc c rest (fun r1 h _ => hcr h)]
    simp [hc, hcr]

theorem splitlinesGo_append : ∀ (l cs acc : List Char), lineOK l = true →
    splitlinesGo (l ++ cs) acc = splitlinesGo cs (l.reverse ++ acc)
  | [], cs, acc, _ => rfl
  | c :: t, cs, acc, hok => by
    rw [lineOK, List.all_cons, Bool.and_eq_true] at hok
    have hc : isLineBreak c = false := by simpa using hok.1
    rw [List.cons_append]
    show splitlinesGo (c :: (t ++ cs)) acc = _
    rw [splitlinesGo_cons_nonbreak c (t ++ cs) acc hc,
      splitlinesGo_append t cs (c :: acc) hok.2, List.reverse_cons, List.append_assoc]
    rfl

theorem splitlinesGo_newline_cons (cs acc : List Char) :
    splitlinesGo ('\n' :: cs) acc = acc.reverse :: splitlinesGo cs [] := by
  rw [splitlinesGo_cons_break '\n' cs acc (by decide)]
  simp

theorem splitlinesGo_join_tail (ls : List (List Char))
    (hok : ∀ l ∈ ls, lineOK l = true) (hne : ls ≠ []) :
    splitlinesGo (joinSep '\n' ls ++ ['\n']) [] = ls := by
  induction ls with
  | nil => exact absurd rfl hne
  | cons p tl ih =>
    cases tl with
    | nil =>
      show splitlinesGo (p ++ ['\n']) [] = [p]
      rw [splitlinesGo_append p ['\n'] [] (hok p (List.mem_cons_self p [])),
        splitlinesGo_newline_cons]
      simp [splitlinesGo]
    | cons q tl' =>
      show splitlinesGo ((p ++ '\n' :: joinSep '\n' (q :: tl')) ++ ['\n']) [] = p :: q :: tl'
      rw [List.append_assoc, List.cons_append,
        splitlinesGo_append p _ [] (hok p (List.mem_cons_self p _)),
        splitlinesGo_newline_cons]
      simp only [List.append_nil, List.reverse_reverse]
      rw [ih (fun l hl => hok l (List.mem_cons.mpr (Or.inr hl))) (by simp)]

theorem splitlinesGo_join_notail (ls : List (List Char))
    (hok : ∀ l ∈ ls, lineOK l = true) (hne : ls ≠ []) :
    splitlinesGo (joinSep '\n' ls) [] =
      if (ls.getLastD []).isEmpty then ls.dropLast else ls := by
  induction ls with
  | nil => exact absurd rfl hne
  | cons p tl ih =>
    cases tl with
    | nil =>
      show splitlinesGo p [] = _
      rw [show (p : List Char) = p ++ [] from (List.append_nil p).symm,
        splitlinesGo_append p [] [] (hok p (List.mem_cons_self p []))]
      rw [splitlinesGo]
      cases p with
      | nil => simp
      | cons c t => simp
    | cons q tl' =>
      show splitlinesGo (p ++ '\n' :: joinSep '\n' (q :: tl')) [] = _
      rw [splitlinesGo_append p _ [] (hok p (List.mem_cons_self p _)),
        splitlinesGo_newline_cons]
      simp only [List.append_nil, List.reverse_reverse]
      have hgl : (p :: q :: tl').getLastD [] = (q :: tl').getLastD [] := by
        rw [List.getLastD_eq_getLast?, List.getLastD_eq_getLast?]
        rfl
      rw [ih (fun l hl => hok l (List.mem_cons.mpr (Or.inr hl))) (by simp), hgl,
        show (p :: q :: tl').dropLast = p :: (q :: tl').dropLast from rfl]
      exact apply_ite (List.cons p) _ _ _

theorem lineOK_reverse_acc {acc : List Char}
    (hacc : ∀ a ∈ acc, isLineBreak a = false) : lineOK acc.reverse = true := by
  rw [lineOK, List.all_reverse, List.all_eq_true]
  intro a ha
  simp [hacc a ha]

theorem lineOK_splitlinesGo_nil {acc : List Char}
    (hacc : ∀ a ∈ acc, isLineBreak a = false) :
    ∀ l ∈ splitlinesGo [] acc, lineOK l = true := by
  intro l hl
  rw [splitlinesGo.eq_1] at hl
  by_cases hemp : acc.isEmpty = true
  · simp [hemp] at hl
  · simp only [Bool.not_eq_true] at hemp
    simp only [hemp, Bool.false_eq_true, if_false, List.mem_singleton] at hl
    subst hl
    exact lineOK_reverse_acc hacc

theorem lineOK_splitlinesGo : ∀ (fuel : Nat) (cs acc : List Char), cs.length ≤ fuel →
    (∀ a ∈ acc, isLineBreak a = false) →
    ∀ l ∈ splitlinesGo cs acc, lineOK l = true := by
  intro fuel
  induction fuel with
  | zero =>
    intro cs acc hlen hacc l hl
    have hcs : cs = [] := by
      cases cs with
      | nil => rfl
      | cons c t => simp at hlen
    subst hcs
    exact lineOK_splitlinesGo_nil hacc l hl
  | succ n ih =>
    intro cs acc hlen hacc l hl
    cases cs with
    | nil => exact lineOK_splitlinesGo_nil hacc l hl
    | cons c rest =>
      by_cases hc : isLineBreak c = true
      · rw [splitlinesGo_cons_break c rest acc hc, List.mem_cons] at hl
        rcases hl with hl | hl
        · subst hl
          exact lineOK_reverse_acc hacc
        · refine ih _ [] ?_ (by simp) l hl
          rw [List.length_cons] at hlen
          split
          · calc rest.tail.length ≤ rest.length := by cases rest <;> simp
              _ ≤ n := by omega
          · omega
      · rw [splitlinesGo_cons_nonbreak c rest acc (by simpa using hc)] at hl
        refine ih rest (c :: acc) (by rw [List.length_cons] at hlen; omega) ?_ l hl
        intro a ha
        rcases List.mem_cons.mp ha with ha | ha
        · subst ha
          simpa using hc
        · exact hacc a ha

theorem lineOK_pySplitlines (cs : List Char) :
    ∀ l ∈ pySplitlines cs, lineOK l = true :=
  lineOK_splitlinesGo cs.length cs [] (Nat.le_refl _) (by simp)

/-! ## Round-trip lemmas for `update_stock_list` / `extract_stock_list` -/

theorem pySplitlines_join_tail (ls : List (List Char))
    (hok : ∀ l ∈ ls, lineOK l = true) (hne : ls ≠ []) :
    pySplitlines (joinSep '\n' ls ++ ['\n']) = ls :=
  splitlinesGo_join_tail ls hok hne

theorem pySplitlines_join_notail (ls : List (List Char))
    (hok : ∀ l ∈ ls, lineOK l = true) (hne : ls ≠ []) :
    pySplitlines (joinSep '\n' ls) =
      if (ls.getLastD []).isEmpty then ls.dropLast else ls :=
  splitlinesGo_join_notail ls hok hne

theorem getLastD_concat {α : Type} (d a : α) (xs : List α) :
    (xs ++ [a]).getLastD d = a := by
  rw [List.getLastD_eq_getLast?, List.getLast?_concat]
  rfl

theorem matchStockLine_stockLine {n : List Char} (hn : stripOK n = true) :
    (matchStockLine (stockLineFor n)).map (fun x => x.2.1) = some n := by
  have h := matchStockLine_value [] [] [] [] n rfl rfl rfl rfl hn
  rw [show ([] : List Char) ++ (stockKey ++ ([] ++ '=' :: ([] ++ (n ++ [])))) = stockLineFor n by
    simp [stockLineFor]] at h
  exact h

theorem mem_blankPadded {outLines : List (List Char)} {l : List Char}
    (h : l ∈ blankPadded outLines) : l ∈ outLines ∨ l = [] := by
  rw [blankPadded] at h
  split at h
  · split at h
    · exact Or.inl h
    · rcases List.mem_append.mp h with h | h
      · exact Or.inl h
      · simp at h
        exact Or.inr h
  · exact Or.inl h

theorem lineOK_stockLineFor {n : List Char} (hok : lineOK n = true) :
    lineOK (stockLineFor n) = true := by
  rw [stockLineFor, lineOK, List.all_append, Bool.and_eq_true]
  refine ⟨lineOK_stockKey, ?_⟩
  rw [List.all_cons, Bool.and_eq_true]
  exact ⟨by decide, hok⟩

theorem lineOK_updatedLines {n : List Char} (env : String) (hok : lineOK n = true) :
    ∀ l ∈ updatedLines env n, lineOK l = true := by
  have hmap : ∀ l ∈ (pySplitlines env.data).map (replaceLine n), lineOK l = true := by
    intro l hl
    rcases List.mem_map.mp hl with ⟨l0, hl0, heq⟩
    subst heq
    exact lineOK_replaceLine hok (lineOK_pySplitlines env.data l0 hl0)
  intro l hl
  rw [updatedLines] at hl
  by_cases hrep : anyStockLine (pySplitlines env.data) = true
  · rw [if_pos hrep] at hl
    exact hmap l hl
  · rw [if_neg hrep] at hl
    rcases List.mem_append.mp hl with hl | hl
    · rcases mem_blankPadded hl with hl | hl
      · exact hmap l hl
      · subst hl
        rfl
    · simp at hl
      subst hl
      exact lineOK_stockLineFor hok

theorem updatedLines_ne_nil {n : List Char} (env : String) :
    updatedLines env n ≠ [] := by
  rw [updatedLines]
  by_cases hrep : anyStockLine (pySplitlines env.data) = true
  · rw [if_pos hrep]
    intro hcon
    rw [List.map_eq_nil_iff] at hcon
    rw [hcon] at hrep
    simp [anyStockLine] at hrep
  · rw [if_neg hrep]
    simp

theorem extract_updatedLines {n : List Char} (env : String)
    (hstrip : stripOK n = true) (hq : quoteWrapped n = false) :
    extractLines (updatedLines env n) = n := by
  rw [updatedLines]
  by_cases hrep : anyStockLine (pySplitlines env.data) = true
  · rw [if_pos hrep, extract_map_replace hstrip hq, if_pos hrep]
  · rw [if_neg hrep]
    have hrep' : anyStockLine (pySplitlines env.data) = false := by
      simpa using hrep
    have hnone : ∀ l ∈ blankPadded ((pySplitlines env.data).map (replaceLine n)),
        matchStockLine l = none := by
      intro l hl
      rw [map_replaceLine_eq_self hrep'] at hl
      rcases mem_blankPadded hl with hl | hl
      · exact anyStockLine_eq_false hrep' l hl
      · subst hl
        exact matchStockLine_nil
    rw [extract_append_noMatch hnone]
    exact extract_cons_value (matchStockLine_stockLine hstrip) hstrip hq

theorem extract_updatedLines_dropLast {n : List Char} (env : String)
    (hstrip : stripOK n = true) (hq : quoteWrapped n = false) :
    extractLines (if ((updatedLines env n).getLastD []).isEmpty then
        (updatedLines env n).dropLast else updatedLines env n) = n := by
  by_cases hlast : ((updatedLines env n).getLastD []).isEmpty = true
  case neg =>
    rw [if_neg hlast]
    exact extract_updatedLines env hstrip hq
  case pos =>
    rw [if_pos hlast]
    rw [updatedLines] at hlast ⊢
    by_cases hrep : anyStockLine (pySplitlines env.data) = true
    · rw [if_pos hrep] at hlast ⊢
      rcases List.eq_nil_or_concat (pySplitlines env.data) with hnil | ⟨LS', e, hLS⟩
      · rw [hnil] at hrep
        simp [anyStockLine] at hrep
      · rw [List.concat_eq_append] at hLS
        rw [hLS, List.map_append,
          show (([e] : List (List Char)).map (replaceLine n)) = [replaceLine n e] from rfl]
          at hlast ⊢
        rw [getLastD_concat] at hlast
        have he : matchStockLine e = none ∧ e = [] := by
          cases hm : matchStockLine e with
          | some x =>
            have hni := replaceLine_ne_nil (n := n) hm
            have hre : replaceLine n e = [] := by
              cases hre2 : replaceLine n e with
              | nil => rfl
              | cons c t =>
                rw [hre2] at hlast
                simp at hlast
            exact absurd hre hni
          | none =>
            have hre : replaceLine n e = e := by
              rw [replaceLine, hm]
            rw [hre] at hlast
            cases e with
            | nil => exact ⟨hm, rfl⟩
            | cons c t => simp at hlast
        obtain ⟨hmnone, henil⟩ := he
        rw [List.dropLast_concat]
        have hrep' : anyStockLine LS' = true := by
          rw [hLS, anyStockLine, List.any_append] at hrep
          rw [anyStockLine]
          simp only [List.any_cons, List.any_nil, hmnone, Option.isSome_none,
            Bool.or_false] at hrep
          exact hrep
        rw [extract_map_replace hstrip hq LS', if_pos hrep']
    · rw [if_neg hrep] at hlast
      rw [getLastD_concat] at hlast
      simp [stockLineFor, stockKey] at hlast

theorem extract_update {n : List Char} (env : String)
    (hok : lineOK n = true) (hstrip : stripOK n = true) (hq : quoteWrapped n = false) :
    extract_stock_list (update_stock_list env ⟨n⟩) = (⟨n⟩ : String) := by
  have hdata : (update_stock_list env ⟨n⟩).data =
      joinSep '\n' (updatedLines env n) ++ (if trailingNLOf env then ['\n'] else []) := rfl
  show (⟨extractLines (pySplitlines (update_stock_list env ⟨n⟩).data)⟩ : String) = ⟨n⟩
  rw [hdata]
  have hlsOK := lineOK_updatedLines env hok
  have hne := updatedLines_ne_nil (n := n) env
  by_cases htb : trailingNLOf env = true
  · rw [if_pos htb, pySplitlines_join_tail _ hlsOK hne, extract_updatedLines env hstrip hq]
  · rw [if_neg htb, List.append_nil, pySplitlines_join_notail _ hlsOK hne,
      extract_updatedLines_dropLast env hstrip hq]

/-- Claim C10, counterexample: for the input "a\rb" the normalized
value survives normalization unchanged (interior carriage returns are
not stripped), but the written line `STOCK_LIST=a\rb` is split at the
carriage return by `splitlines`, so reading the value back yields only
"a". -/
theorem claim_C10_counterexample :
    normalize_stock_list "a\rb" = "a\rb" ∧
    get_stock_list (set_stock_list "" "a\rb").1 = "a" ∧
    ("a" : String) ≠ "a\rb" := by
  refine ⟨by decide, by decide, by decide⟩

/-- Claim C10, amended: `set_stock_list` returns the normalization of
its input (split on commas and newlines, parts stripped, empties
dropped, re-joined with commas); normalization is idempotent; and
provided the normalized value does not both start and end with a quote
character AND contains none of the `splitlines` line boundaries other
than newline - CR, VT, FF, FS, GS, RS, NEL, LINE SEPARATOR, PARAGRAPH
SEPARATOR (newline itself never survives normalization) - a subsequent
`get_stock_list` on the file content just written returns that same
normalized string. -/
theorem claim_C10 (envText value : String)
    (hq : quoteWrapped (normalize_stock_list value).data = false)
    (hcr : (normalize_stock_list value).data.all
      (fun c => !nonNLBreak c) = true) :
    (set_stock_list envText value).2 = normalize_stock_list value ∧
    normalize_stock_list (normalize_stock_list value) = normalize_stock_list value ∧
    get_stock_list (set_stock_list envText value).1 = normalize_stock_list value := by
  refine ⟨rfl, normalize_stock_idem value, ?_⟩
  have hok : lineOK (normalize_stock_list value).data = true := by
    rw [lineOK, List.all_eq_true]
    intro c hc
    rw [List.all_eq_true] at hcr
    have h2 : nonNLBreak c = false := by simpa using hcr c hc
    have h3 : (decide (c = '\n')) = false := by
      rw [decide_eq_false_iff_not]
      exact fun hcn => newline_not_mem_normalize value (hcn ▸ hc)
    have h4 : isLineBreak c = false := by
      rw [isLineBreak, h2, h3]
      rfl
    simp [h4]
  exact extract_update envText hok (stripOK_normalize value) hq

/-- Witness for C10's amended theorem at a concrete input. -/
theorem claim_C10_witness :
    quoteWrapped (normalize_stock_list " 600519, 000001\n600036 ").data = false ∧
    (normalize_stock_list " 600519, 000001\n600036 ").data.all
      (fun c => !nonNLBreak c) = true ∧
    get_stock_list (set_stock_list "A=1\n" " 600519, 000001\n600036 ").1
      = normalize_stock_list " 600519, 000001\n600036 " :=
  ⟨by decide, by decide,
    (claim_C10 "A=1\n" " 600519, 000001\n600036 " (by decide) (by decide)).2.2⟩
